import Mathlib

/-!
Verification of the duplicate-file detection and resolution engine of the
`morchaos` repository (`morchaos/filemanager/duplicate.py`,
`morchaos/core/utils.py`, and the spec-described scanner/resolver of
`morchaos/core/duplicate.py` / `morchaos/core/source.py`).

The filesystem is modelled as a record of observation functions: which paths
are regular files, which are directories, the recursive-glob enumeration of a
directory, and the byte content of a path (`none` models an unreadable or
nonexistent file, i.e. `open` raising).  `hashlib` digest objects are modelled
by the byte stream they have absorbed, so that a digest is a function of the
absorbed bytes only, exactly the interface contract the code relies on.
-/

set_option autoImplicit false

namespace Morchaos

/-- A filesystem path: the list of parent directory-name segments plus the
final component (`pathlib.Path.name`). -/
structure MPath where
  parent : List String
  name : String
deriving DecidableEq

/-- Observable filesystem state: `isFile`/`isDir` mirror `Path.is_file` /
`Path.is_dir`, `rglob` mirrors `Path.rglob("*")` (all entries below a
directory, in traversal order), and `content` gives the bytes of a path, with
`none` when opening the path raises (`FileNotFoundError`, `PermissionError`,
…). -/
structure FS where
  isFile : MPath → Bool
  isDir : MPath → Bool
  rglob : MPath → List MPath
  content : MPath → Option (List Nat)

/-- A `hashlib` digest object: the algorithm it was created with and the byte
stream absorbed so far.  The model keeps the absorbed stream itself, which
captures exactly the property the code uses: the digest is a function of the
algorithm and the concatenation of all `update` chunks. -/
structure HashObj where
  algorithm : String
  absorbed : List Nat
deriving DecidableEq

/-- `hashlib.new(algorithm)`. -/
def hashNew (algorithm : String) : HashObj := ⟨algorithm, []⟩

/-- `hash_obj.update(chunk)`. -/
def hashUpdate (h : HashObj) (chunk : List Nat) : HashObj :=
  ⟨h.algorithm, h.absorbed ++ chunk⟩

/-- `hash_obj.hexdigest()`: the digest string, a function of the algorithm and
the absorbed bytes. -/
def hexdigest (h : HashObj) : String :=
  h.algorithm ++ "|" ++ toString h.absorbed

/-- Fuel-indexed chunking loop; the fuel only bounds the recursion depth and
never runs out when it starts above the data length. -/
def readChunksFuel (n : Nat) : Nat → List Nat → List (List Nat)
  | 0, _ => []
  | fuel + 1, data =>
      if n = 0 ∨ data = [] then []
      else data.take n :: readChunksFuel n fuel (data.drop n)

/-- The chunks produced by `iter(lambda: f.read(n), b"")`: successive `take n`
pieces of the file's bytes.  (For `n = 0` Python's `f.read(0)` returns `b""`
at once, so no chunks are produced.) -/
def readChunks (n : Nat) (data : List Nat) : List (List Nat) :=
  readChunksFuel n (data.length + 1) data

/-- `calculate_file_hash(path, algorithm)` of `morchaos/core/utils.py`:
reads the file in 8192-byte chunks, folds them into the digest object, and
returns the hex digest.  An unopenable path raises, modelled as `.error`. -/
def calculate_file_hash (fs : FS) (path : MPath) (algorithm : String) :
    Except String String :=
  match fs.content path with
  | none => .error "cannot open file"
  | some data =>
      .ok (hexdigest ((readChunks 8192 data).foldl hashUpdate (hashNew algorithm)))

/-- The fingerprint of a path when hashing succeeds. -/
def hashOf (fs : FS) (path : MPath) (algorithm : String) : Option String :=
  (calculate_file_hash fs path algorithm).toOption

/-- Groups-by-hash: `defaultdict(list)` in insertion order, i.e. an association
list from fingerprint to the ordered list of paths. -/
def Groups := List (String × List MPath)

/-- `hash_to_files[file_hash].append(path)`: append `p` to the group keyed by
`h`, creating the group at the end when the key is new (dict insertion
order). -/
def addToGroup : List (String × List MPath) → String → MPath →
    List (String × List MPath)
  | [], h, p => [(h, [p])]
  | (k, fls) :: rest, h, p =>
      if k = h then (k, fls ++ [p]) :: rest
      else (k, fls) :: addToGroup rest h p

/-- One file visit of `find_duplicates`: hash the file and append it to its
group; a hashing exception is logged and the file skipped. -/
def scanFile (fs : FS) (algorithm : String)
    (groups : List (String × List MPath)) (p : MPath) :
    List (String × List MPath) :=
  match calculate_file_hash fs p algorithm with
  | .ok h => addToGroup groups h p
  | .error _ => groups

/-- `find_duplicates(paths, algorithm)` of `morchaos/filemanager/duplicate.py`:
visit each input path (a file directly, a directory via `rglob("*")` filtered
to regular files, anything else silently skipped), group by hash, and keep
only the groups with more than one member. -/
def find_duplicates (fs : FS) (paths : List MPath) (algorithm : String) :
    List (String × List MPath) :=
  let groups := paths.foldl (fun acc path =>
    if fs.isFile path then scanFile fs algorithm acc path
    else if fs.isDir path then
      (fs.rglob path).foldl (fun acc2 fp =>
        if fs.isFile fp then scanFile fs algorithm acc2 fp else acc2) acc
    else acc) []
  groups.filter (fun g => decide (1 < g.2.length))

/-- The regular files contributed by one input path, in visit order. -/
def filesOf (fs : FS) (path : MPath) : List MPath :=
  if fs.isFile path then [path]
  else if fs.isDir path then (fs.rglob path).filter fs.isFile
  else []

/-- All regular files visited by the scan, in discovery order. -/
def discoveredFiles (fs : FS) (paths : List MPath) : List MPath :=
  (paths.map (filesOf fs)).flatten

/-- First-match association-list lookup (Python dict indexing). -/
def lookupGroup : List (String × List MPath) → String → List MPath
  | [], _ => []
  | (k, fls) :: rest, h => if k = h then fls else lookupGroup rest h

/-- The keep strategy of `remove_duplicates` (`KeepStrategy` literal). -/
inductive KeepStrategy where
  | longer
  | shorter
  | first
deriving DecidableEq

/-- Python `max(files, key=key)`: fold keeping the current element unless the
new one's key is strictly greater, so the first maximal element wins ties. -/
def pyMaxBy (key : MPath → Nat) : List MPath → Option MPath
  | [] => none
  | x :: xs => some (xs.foldl (fun b y => if key b < key y then y else b) x)

/-- Python `min(files, key=key)`: the first minimal element wins ties. -/
def pyMinBy (key : MPath → Nat) : List MPath → Option MPath
  | [] => none
  | x :: xs => some (xs.foldl (fun b y => if key y < key b then y else b) x)

/-- The file kept by `remove_duplicates` for one group:
`max(files, key=lambda f: len(f.name))`, `min(...)`, or `files[0]`. -/
def keepOf : KeepStrategy → List MPath → Option MPath
  | .longer, files => pyMaxBy (fun f => f.name.length) files
  | .shorter, files => pyMinBy (fun f => f.name.length) files
  | .first, files => files.head?

/-- `Path.unlink()`: delete the file, raising (`none`) when it does not
exist. -/
def unlink (fs : FS) (p : MPath) : Option FS :=
  if fs.isFile p then
    some { fs with
      isFile := fun q => if q = p then false else fs.isFile q,
      content := fun q => if q = p then none else fs.content q }
  else none

/-- The per-group removal loop of `remove_duplicates`: every file other than
the kept one is removed (or, in a dry run, only recorded); a failing `unlink`
is logged and the file is not counted. -/
def removeGroup (dry_run : Bool) (keep : MPath) (acc : List MPath × FS)
    (files : List MPath) : List MPath × FS :=
  files.foldl (fun acc2 fp =>
    if fp = keep then acc2
    else if dry_run then (acc2.1 ++ [fp], acc2.2)
    else
      match unlink acc2.2 fp with
      | some fs2 => (acc2.1 ++ [fp], fs2)
      | none => acc2) acc

/-- `remove_duplicates(duplicate_groups, strategy, dry_run)` of
`morchaos/filemanager/duplicate.py`: for each group of more than one file,
select the kept file by the strategy and remove (or record) the rest,
returning the removed files in order together with the final filesystem
state. -/
def remove_duplicates (duplicate_groups : List (String × List MPath))
    (strategy : KeepStrategy) (dry_run : Bool) (fs : FS) :
    List MPath × FS :=
  duplicate_groups.foldl (fun acc g =>
    if g.2.length ≤ 1 then acc
    else
      match keepOf strategy g.2 with
      | none => acc
      | some keep => removeGroup dry_run keep acc g.2) ([], fs)

/-- The files of one group that the strategy does not keep (the removal
targets), in group order; empty for groups the loop skips. -/
def nonKeptGroup (strategy : KeepStrategy) (files : List MPath) :
    List MPath :=
  if files.length ≤ 1 then []
  else
    match keepOf strategy files with
    | none => []
    | some keep => files.filter (fun f => decide (f ≠ keep))

/-- All removal targets of a run of `remove_duplicates`, in processing
order. -/
def nonKeptFiles (duplicate_groups : List (String × List MPath))
    (strategy : KeepStrategy) : List MPath :=
  (duplicate_groups.map (fun g => nonKeptGroup strategy g.2)).flatten

/-- `find_and_remove_duplicates(paths, strategy, dry_run)` of
`morchaos/filemanager/duplicate.py`: scan, count the duplicates, return `[]`
early when there are none, otherwise resolve. -/
def find_and_remove_duplicates (fs : FS) (paths : List MPath)
    (strategy : KeepStrategy) (dry_run : Bool) : List MPath × FS :=
  let duplicates := find_duplicates fs paths "md5"
  let total : Nat := (duplicates.map (fun g => g.2.length - 1)).sum
  if total = 0 then ([], fs)
  else remove_duplicates duplicates strategy dry_run fs

/-- `Path.suffix`: the extension of the final component, `""` when the name
has no dot, otherwise a dot followed by the part after the last dot. -/
def extOf (p : MPath) : String :=
  let parts := p.name.splitOn "."
  if parts.length ≤ 1 then "" else "." ++ parts.getLastD ""

/-- Does the extension allow-list (when configured) admit this file? -/
def extAllowed (extensions : Option (List String)) (p : MPath) : Bool :=
  match extensions with
  | none => true
  | some exts => decide (extOf p ∈ exts)

/-- Is the file outside every excluded directory name? -/
def notIgnored (ignore_dirs : List String) (p : MPath) : Bool :=
  decide (∀ d ∈ ignore_dirs, d ∉ p.parent)

/-- Modelled from the spec: `find_duplicates(root, extensions, ignore_dirs)`
of `morchaos/core/duplicate.py` is absent from `src/` (only its tests are
present).  Per spec section 4.2 it fails with a fatal "root not found"
condition when the scan root does not exist or is not a directory, and
otherwise traverses the tree, skipping files in excluded directories or with
disallowed extensions, grouping the rest by fingerprint (unreadable files are
logged and skipped), and dropping groups of fewer than two members. -/
def core_find_duplicates (fs : FS) (root : MPath)
    (extensions : Option (List String)) (ignore_dirs : List String)
    (algorithm : String) :
    Except String (List (String × List MPath)) :=
  if fs.isDir root then
    .ok ((((fs.rglob root).filter (fun p =>
        fs.isFile p && extAllowed extensions p && notIgnored ignore_dirs p)).foldl
        (scanFile fs algorithm) []).filter (fun g => decide (1 < g.2.length)))
  else .error "root not found"

/-- The resolution action of the spec's resolver. -/
inductive ResolutionAction where
  | delete
  | move
  | dryRun
deriving DecidableEq

/-- Split a file name into stem and extension at the last dot. -/
def splitExt (name : String) : String × String :=
  let parts := name.splitOn "."
  if parts.length ≤ 1 then (name, "")
  else (String.intercalate "." parts.dropLast, "." ++ parts.getLastD "")

/-- Create (or overwrite) a file with the given content. -/
def setFile (fs : FS) (p : MPath) (data : Option (List Nat)) : FS :=
  { fs with
    isFile := fun q => if q = p then true else fs.isFile q,
    content := fun q => if q = p then data else fs.content q }

/-- Modelled from the spec: the destination chosen when moving a file named
`name` into directory `dir` — on a name collision in the target, a numeric
disambiguator is appended before the extension (one level modelled; the spec
does not fix the search). -/
def moveDest (fs : FS) (dir : MPath) (name : String) : MPath :=
  let inTarget : String → MPath := fun nm => ⟨dir.parent ++ [dir.name], nm⟩
  if fs.isFile (inTarget name) then
    inTarget ((splitExt name).1 ++ "1" ++ (splitExt name).2)
  else inTarget name

/-- Modelled from the spec: `act_on_duplicates(duplicates, action, target)` of
`morchaos/core/duplicate.py` is absent from `src/` (only its tests are
present).  Per spec sections 4.3 and 7 it fails with a fatal "invalid
configuration" condition when the move action is requested without a target
directory, before touching any file; otherwise it keeps the first-discovered
file of each group (the keep rule its tests exercise) and applies the action
to the rest, returning the count of files acted upon (per-file failures are
logged and not counted; a dry run touches nothing). -/
def act_on_duplicates (duplicates : List (String × List MPath))
    (action : ResolutionAction) (target : Option MPath) (fs : FS) :
    Except String (Nat × FS) :=
  match action, target with
  | .move, none => .error "invalid configuration"
  | _, _ =>
    .ok (duplicates.foldl (fun acc g =>
      if g.2.length ≤ 1 then acc
      else
        match g.2.head? with
        | none => acc
        | some keep =>
          g.2.foldl (fun acc2 fp =>
            if fp = keep then acc2
            else
              match action with
              | .dryRun => (acc2.1 + 1, acc2.2)
              | .delete =>
                match unlink acc2.2 fp with
                | some fs2 => (acc2.1 + 1, fs2)
                | none => acc2
              | .move =>
                match target with
                | none => acc2
                | some dir =>
                  let data := acc2.2.content fp
                  match unlink acc2.2 fp with
                  | some fs2 =>
                    (acc2.1 + 1, setFile fs2 (moveDest fs2 dir fp.name) data)
                  | none => acc2) acc) (0, fs))

/-- Modelled from the spec: one line of source with its comment text stripped
(everything from the comment marker on) and all whitespace removed, the
normal form used by `normalize_hash` of `morchaos/core/source.py`, which is
absent from `src/` (only its tests are present). -/
def normLineChars (l : List Char) : List Char :=
  (l.takeWhile (fun c => decide (c ≠ '#'))).filter (fun c => !c.isWhitespace)

/-- Modelled from the spec: the normalized lines of a source file — each line
comment-stripped and whitespace-collapsed, lines left empty by normalization
dropped. -/
def normalizeSource (lines : List (List Char)) : List (List Char) :=
  (lines.map normLineChars).filter (fun l => decide (l ≠ []))

/-- Modelled from the spec: `normalize_hash` of `morchaos/core/source.py` —
hash the normalized source text (normalized lines joined by newlines). -/
def normalize_hash (algorithm : String) (lines : List (List Char)) : String :=
  hexdigest (hashUpdate (hashNew algorithm)
    (((normalizeSource lines).map (fun l => l.map Char.toNat ++ [10])).flatten))

/-! ### Digest-stream lemmas -/

theorem foldl_hashUpdate (s : HashObj) (chunks : List (List Nat)) :
    chunks.foldl hashUpdate s = ⟨s.algorithm, s.absorbed ++ chunks.flatten⟩ := by
  induction chunks generalizing s with
  | nil => cases s; simp
  | cons c cs ih => simp [hashUpdate, ih]

theorem readChunksFuel_flatten (n : Nat) (hn : 0 < n) :
    ∀ (fuel : Nat) (d : List Nat), d.length < fuel →
      (readChunksFuel n fuel d).flatten = d := by
  intro fuel
  induction fuel with
  | zero => intro d hlt; omega
  | succ fuel ih =>
    intro d hlt
    by_cases hd : d = []
    · simp [readChunksFuel, hd]
    · have hcond : ¬ (n = 0 ∨ d = []) := by
        push_neg
        exact ⟨by omega, hd⟩
      rw [readChunksFuel, if_neg hcond]
      have hlen : (d.drop n).length < fuel := by
        have : 0 < d.length := List.length_pos.mpr hd
        simp only [List.length_drop]
        omega
      simp [ih (d.drop n) hlen]

theorem readChunks_flatten (n : Nat) (hn : 0 < n) (data : List Nat) :
    (readChunks n data).flatten = data :=
  readChunksFuel_flatten n hn (data.length + 1) data (by omega)

theorem calculate_file_hash_content (fs : FS) (p : MPath) (alg : String)
    (data : List Nat) (hc : fs.content p = some data) :
    calculate_file_hash fs p alg = .ok (hexdigest (hashUpdate (hashNew alg) data)) := by
  simp only [calculate_file_hash, hc, foldl_hashUpdate,
    readChunks_flatten 8192 (by omega) data]
  rfl

/-! ### Scanner fold invariants -/

/-- The fingerprint keys of a groups-by-hash table, in insertion order. -/
def keysOf (groups : List (String × List MPath)) : List String :=
  groups.map Prod.fst

theorem lookupGroup_addToGroup (groups : List (String × List MPath))
    (h h' : String) (p : MPath) :
    lookupGroup (addToGroup groups h p) h' =
      if h' = h then lookupGroup groups h' ++ [p] else lookupGroup groups h' := by
  induction groups with
  | nil =>
    rcases eq_or_ne h' h with rfl | hne
    · simp [addToGroup, lookupGroup]
    · simp [addToGroup, lookupGroup, hne, Ne.symm hne]
  | cons kv rest ih =>
    obtain ⟨k, fls⟩ := kv
    by_cases hk : k = h
    · subst hk
      rcases eq_or_ne h' k with rfl | hne
      · simp [addToGroup, lookupGroup]
      · simp [addToGroup, lookupGroup, hne, Ne.symm hne]
    · rcases eq_or_ne k h' with rfl | hne
      · simp [addToGroup, lookupGroup, hk]
      · simp [addToGroup, lookupGroup, hk, hne, ih]

theorem foldl_scanFile_lookup (fs : FS) (alg : String) :
    ∀ (l : List MPath) (groups : List (String × List MPath)) (h : String),
      lookupGroup (l.foldl (scanFile fs alg) groups) h =
        lookupGroup groups h ++
          l.filter (fun p => decide (hashOf fs p alg = some h)) := by
  intro l
  induction l with
  | nil => intro groups h; simp
  | cons p rest ih =>
    intro groups h
    simp only [List.foldl_cons]
    rcases hc : calculate_file_hash fs p alg with e | h0
    · have hskip : scanFile fs alg groups p = groups := by
        simp [scanFile, hc]
      have hnone : hashOf fs p alg = none := by
        simp [hashOf, hc, Except.toOption]
      rw [hskip, ih]
      simp [List.filter_cons, hnone]
    · have hstep : scanFile fs alg groups p = addToGroup groups h0 p := by
        simp [scanFile, hc]
      have hsome : hashOf fs p alg = some h0 := by
        simp [hashOf, hc, Except.toOption]
      rw [hstep, ih, lookupGroup_addToGroup]
      rcases eq_or_ne h h0 with rfl | hne
      · simp [List.filter_cons, hsome]
      · simp [List.filter_cons, hsome, hne, Ne.symm hne]

theorem keysOf_addToGroup (groups : List (String × List MPath)) (h : String)
    (p : MPath) :
    keysOf (addToGroup groups h p) =
      if h ∈ keysOf groups then keysOf groups else keysOf groups ++ [h] := by
  induction groups with
  | nil => simp [addToGroup, keysOf]
  | cons kv rest ih =>
    obtain ⟨k, fls⟩ := kv
    by_cases hk : k = h
    · subst hk
      simp [addToGroup, keysOf]
    · have hadd : addToGroup ((k, fls) :: rest) h p = (k, fls) :: addToGroup rest h p := by
        simp [addToGroup, hk]
      by_cases hmem : h ∈ keysOf rest
      · have hmem2 : h ∈ keysOf ((k, fls) :: rest) := by
          simp [keysOf] at hmem ⊢
          exact Or.inr hmem
        rw [hadd, if_pos hmem2]
        show k :: keysOf (addToGroup rest h p) = keysOf ((k, fls) :: rest)
        rw [ih, if_pos hmem]
        rfl
      · have hmem2 : h ∉ keysOf ((k, fls) :: rest) := by
          simp [keysOf] at hmem ⊢
          exact ⟨Ne.symm hk, hmem⟩
        rw [hadd, if_neg hmem2]
        show k :: keysOf (addToGroup rest h p) = keysOf ((k, fls) :: rest) ++ [h]
        rw [ih, if_neg hmem]
        rfl

theorem nodup_keysOf_addToGroup (groups : List (String × List MPath))
    (h : String) (p : MPath) (hnd : (keysOf groups).Nodup) :
    (keysOf (addToGroup groups h p)).Nodup := by
  rw [keysOf_addToGroup]
  by_cases hmem : h ∈ keysOf groups
  · simpa [hmem] using hnd
  · rw [if_neg hmem, List.nodup_append]
    refine ⟨hnd, List.nodup_singleton h, ?_⟩
    intro a ha hb
    rw [List.mem_singleton] at hb
    subst hb
    exact hmem ha

theorem nodup_keysOf_foldl_scanFile (fs : FS) (alg : String) :
    ∀ (l : List MPath) (groups : List (String × List MPath)),
      (keysOf groups).Nodup →
      (keysOf (l.foldl (scanFile fs alg) groups)).Nodup := by
  intro l
  induction l with
  | nil => intro groups hnd; simpa using hnd
  | cons p rest ih =>
    intro groups hnd
    simp only [List.foldl_cons]
    apply ih
    rcases hc : calculate_file_hash fs p alg with e | h0
    · simpa [scanFile, hc] using hnd
    · simp only [scanFile, hc]
      exact nodup_keysOf_addToGroup groups h0 p hnd

theorem lookupGroup_eq_of_mem :
    ∀ (groups : List (String × List MPath)) (h : String) (g : List MPath),
      (h, g) ∈ groups → (keysOf groups).Nodup → lookupGroup groups h = g := by
  intro groups
  induction groups with
  | nil => intro h g hm _; simp at hm
  | cons kv rest ih =>
    intro h g hm hnd
    obtain ⟨k, fls⟩ := kv
    have hnd' : k ∉ keysOf rest ∧ (keysOf rest).Nodup := by
      rw [show keysOf ((k, fls) :: rest) = k :: keysOf rest from rfl,
        List.nodup_cons] at hnd
      exact hnd
    rcases List.mem_cons.mp hm with heq | hrest
    · injection heq with e1 e2
      subst e1
      subst e2
      simp [lookupGroup]
    · have hk : k ≠ h := by
        intro hkh
        subst hkh
        have : k ∈ keysOf rest := List.mem_map.mpr ⟨(k, g), hrest, rfl⟩
        exact hnd'.1 this
      rw [show lookupGroup ((k, fls) :: rest) h = lookupGroup rest h from by
        simp [lookupGroup, hk]]
      exact ih h g hrest hnd'.2

theorem foldl_scanFile_filter_isFile (fs : FS) (alg : String) :
    ∀ (l : List MPath) (acc : List (String × List MPath)),
      l.foldl (fun a fp => if fs.isFile fp then scanFile fs alg a fp else a) acc =
        (l.filter fs.isFile).foldl (scanFile fs alg) acc := by
  intro l
  induction l with
  | nil => intro acc; rfl
  | cons p rest ih =>
    intro acc
    by_cases hp : fs.isFile p
    · simp [List.filter_cons, hp, ih]
    · simp [List.filter_cons, hp, ih]

theorem find_duplicates_eq_discovered (fs : FS) (paths : List MPath)
    (alg : String) :
    find_duplicates fs paths alg =
      ((discoveredFiles fs paths).foldl (scanFile fs alg) []).filter
        (fun g => decide (1 < g.2.length)) := by
  have key : ∀ (ps : List MPath) (acc : List (String × List MPath)),
      ps.foldl (fun a path =>
        if fs.isFile path then scanFile fs alg a path
        else if fs.isDir path then
          (fs.rglob path).foldl (fun a2 fp =>
            if fs.isFile fp then scanFile fs alg a2 fp else a2) a
        else a) acc =
      (ps.map (filesOf fs)).flatten.foldl (scanFile fs alg) acc := by
    intro ps
    induction ps with
    | nil => intro acc; rfl
    | cons p rest ih =>
      intro acc
      simp only [List.foldl_cons, List.map_cons, List.flatten_cons,
        List.foldl_append]
      rw [ih]
      congr 1
      by_cases hf : fs.isFile p
      · simp [filesOf, hf]
      · by_cases hd : fs.isDir p
        · simp [filesOf, hf, hd, foldl_scanFile_filter_isFile]
        · simp [filesOf, hf, hd]
  simp only [find_duplicates, discoveredFiles, key]

/-- `scanFile` leaves the table unchanged exactly on the files whose hashing
fails, so the scan is the scan of the readable files only. -/
theorem foldl_scanFile_filter_readable (fs : FS) (alg : String) :
    ∀ (l : List MPath) (acc : List (String × List MPath)),
      l.foldl (scanFile fs alg) acc =
        (l.filter (fun p => (hashOf fs p alg).isSome)).foldl
          (scanFile fs alg) acc := by
  intro l
  induction l with
  | nil => intro acc; rfl
  | cons p rest ih =>
    intro acc
    rcases hc : calculate_file_hash fs p alg with e | h0
    · have hnone : (hashOf fs p alg).isSome = false := by
        simp [hashOf, hc, Except.toOption]
      have hskip : scanFile fs alg acc p = acc := by simp [scanFile, hc]
      simp [List.filter_cons, hnone, hskip, ih]
    · have hsome : (hashOf fs p alg).isSome = true := by
        simp [hashOf, hc, Except.toOption]
      simp [List.filter_cons, hsome, ih]

/-! ### Keep-policy selection lemmas -/

theorem pyMaxBy_split (key : MPath → Nat) :
    ∀ (xs : List MPath) (x : MPath), ∃ k pre post,
      pyMaxBy key (x :: xs) = some k ∧ x :: xs = pre ++ k :: post ∧
      (∀ f ∈ pre, key f < key k) ∧ (∀ f ∈ post, key f ≤ key k) := by
  intro xs
  induction xs with
  | nil =>
    intro x
    exact ⟨x, [], [], rfl, rfl, by simp, by simp⟩
  | cons y ys ih =>
    intro x
    by_cases hxy : key x < key y
    · have hstep : pyMaxBy key (x :: y :: ys) = pyMaxBy key (y :: ys) := by
        simp [pyMaxBy, hxy]
      obtain ⟨k, pre, post, hk, hsplit, hpre, hpost⟩ := ih y
      have hyk : key y ≤ key k := by
        cases pre with
        | nil =>
          have : y = k := by
            have := hsplit
            simp at this
            exact this.1
          simp [this]
        | cons z pre2 =>
          have hz : z = y := by
            have := hsplit
            simp at this
            exact this.1.symm
          subst hz
          exact Nat.le_of_lt (hpre z (by simp))
      refine ⟨k, x :: pre, post, by rw [hstep]; exact hk, by simp [hsplit], ?_, hpost⟩
      intro f hf
      rcases List.mem_cons.mp hf with rfl | hf2
      · exact Nat.lt_of_lt_of_le hxy hyk
      · exact hpre f hf2
    · have hstep : pyMaxBy key (x :: y :: ys) = pyMaxBy key (x :: ys) := by
        simp [pyMaxBy, hxy]
      obtain ⟨k, pre, post, hk, hsplit, hpre, hpost⟩ := ih x
      cases pre with
      | nil =>
        have hx : x = k ∧ ys = post := by
          have := hsplit
          simp at this
          exact this
        obtain ⟨rfl, rfl⟩ := hx
        refine ⟨x, [], y :: ys, by rw [hstep]; exact hk, by simp, by simp, ?_⟩
        intro f hf
        rcases List.mem_cons.mp hf with rfl | hf2
        · exact Nat.le_of_not_lt hxy
        · exact hpost f hf2
      | cons z pre2 =>
        have hz : z = x ∧ ys = pre2 ++ k :: post := by
          have := hsplit
          simp at this
          exact ⟨this.1.symm, this.2⟩
        obtain ⟨rfl, hys⟩ := hz
        have hxk : key z < key k := hpre z (by simp)
        refine ⟨k, z :: y :: pre2, post, by rw [hstep]; exact hk,
          by simp [hys], ?_, hpost⟩
        intro f hf
        rcases List.mem_cons.mp hf with rfl | hf2
        · exact hxk
        · rcases List.mem_cons.mp hf2 with rfl | hf3
          · exact Nat.lt_of_le_of_lt (Nat.le_of_not_lt hxy) hxk
          · exact hpre f (by simp [hf3])

theorem pyMinBy_split (key : MPath → Nat) :
    ∀ (xs : List MPath) (x : MPath), ∃ k pre post,
      pyMinBy key (x :: xs) = some k ∧ x :: xs = pre ++ k :: post ∧
      (∀ f ∈ pre, key k < key f) ∧ (∀ f ∈ post, key k ≤ key f) := by
  intro xs
  induction xs with
  | nil =>
    intro x
    exact ⟨x, [], [], rfl, rfl, by simp, by simp⟩
  | cons y ys ih =>
    intro x
    by_cases hxy : key y < key x
    · have hstep : pyMinBy key (x :: y :: ys) = pyMinBy key (y :: ys) := by
        simp [pyMinBy, hxy]
      obtain ⟨k, pre, post, hk, hsplit, hpre, hpost⟩ := ih y
      have hyk : key k ≤ key y := by
        cases pre with
        | nil =>
          have : y = k := by
            have := hsplit
            simp at this
            exact this.1
          simp [this]
        | cons z pre2 =>
          have hz : z = y := by
            have := hsplit
            simp at this
            exact this.1.symm
          subst hz
          exact Nat.le_of_lt (hpre z (by simp))
      refine ⟨k, x :: pre, post, by rw [hstep]; exact hk, by simp [hsplit], ?_, hpost⟩
      intro f hf
      rcases List.mem_cons.mp hf with rfl | hf2
      · exact Nat.lt_of_le_of_lt hyk hxy
      · exact hpre f hf2
    · have hstep : pyMinBy key (x :: y :: ys) = pyMinBy key (x :: ys) := by
        simp [pyMinBy, hxy]
      obtain ⟨k, pre, post, hk, hsplit, hpre, hpost⟩ := ih x
      cases pre with
      | nil =>
        have hx : x = k ∧ ys = post := by
          have := hsplit
          simp at this
          exact this
        obtain ⟨rfl, rfl⟩ := hx
        refine ⟨x, [], y :: ys, by rw [hstep]; exact hk, by simp, by simp, ?_⟩
        intro f hf
        rcases List.mem_cons.mp hf with rfl | hf2
        · exact Nat.le_of_not_lt hxy
        · exact hpost f hf2
      | cons z pre2 =>
        have hz : z = x ∧ ys = pre2 ++ k :: post := by
          have := hsplit
          simp at this
          exact ⟨this.1.symm, this.2⟩
        obtain ⟨rfl, hys⟩ := hz
        have hxk : key k < key z := hpre z (by simp)
        refine ⟨k, z :: y :: pre2, post, by rw [hstep]; exact hk,
          by simp [hys], ?_, hpost⟩
        intro f hf
        rcases List.mem_cons.mp hf with rfl | hf2
        · exact hxk
        · rcases List.mem_cons.mp hf2 with rfl | hf3
          · exact Nat.lt_of_lt_of_le hxk (Nat.le_of_not_lt hxy)
          · exact hpre f (by simp [hf3])

/-- Every keep strategy selects some member of a nonempty group, splitting the
group around it. -/
theorem keepOf_split (strategy : KeepStrategy) (files : List MPath)
    (hne : files ≠ []) :
    ∃ k pre post, keepOf strategy files = some k ∧ files = pre ++ k :: post := by
  obtain ⟨x, xs, rfl⟩ := List.exists_cons_of_ne_nil hne
  cases strategy with
  | longer =>
    obtain ⟨k, pre, post, hk, hsplit, _, _⟩ :=
      pyMaxBy_split (fun f => f.name.length) xs x
    exact ⟨k, pre, post, hk, hsplit⟩
  | shorter =>
    obtain ⟨k, pre, post, hk, hsplit, _, _⟩ :=
      pyMinBy_split (fun f => f.name.length) xs x
    exact ⟨k, pre, post, hk, hsplit⟩
  | first => exact ⟨x, [], xs, rfl, rfl⟩

/-! ### Resolver run lemmas -/

theorem removeGroup_dry (keep : MPath) :
    ∀ (files : List MPath) (acc : List MPath × FS),
      removeGroup true keep acc files =
        (acc.1 ++ files.filter (fun f => decide (f ≠ keep)), acc.2) := by
  intro files
  induction files with
  | nil => intro acc; simp [removeGroup]
  | cons f rest ih =>
    intro acc
    by_cases hf : f = keep
    · have hstep : removeGroup true keep acc (f :: rest) =
          removeGroup true keep acc rest := by
        simp [removeGroup, hf]
      rw [hstep, ih, List.filter_cons]
      simp [hf]
    · have hstep : removeGroup true keep acc (f :: rest) =
          removeGroup true keep (acc.1 ++ [f], acc.2) rest := by
        simp [removeGroup, hf]
      rw [hstep, ih, List.filter_cons]
      simp [hf]

theorem remove_duplicates_dry (duplicate_groups : List (String × List MPath))
    (strategy : KeepStrategy) (fs : FS) :
    remove_duplicates duplicate_groups strategy true fs =
      (nonKeptFiles duplicate_groups strategy, fs) := by
  have key : ∀ (gs : List (String × List MPath)) (acc : List MPath × FS),
      gs.foldl (fun acc g =>
        if g.2.length ≤ 1 then acc
        else
          match keepOf strategy g.2 with
          | none => acc
          | some keep => removeGroup true keep acc g.2) acc =
      (acc.1 ++ nonKeptFiles gs strategy, acc.2) := by
    intro gs
    induction gs with
    | nil => intro acc; simp [nonKeptFiles]
    | cons g rest ih =>
      intro acc
      simp only [List.foldl_cons]
      by_cases hlen : g.2.length ≤ 1
      · rw [if_pos hlen, ih]
        simp [nonKeptFiles, nonKeptGroup, hlen]
      · rw [if_neg hlen]
        rcases hk : keepOf strategy g.2 with _ | keep
        · simp only [hk]
          rw [ih]
          simp [nonKeptFiles, nonKeptGroup, hlen, hk]
        · simp only [hk]
          rw [removeGroup_dry, ih]
          simp [nonKeptFiles, nonKeptGroup, hlen, hk]
  simp only [remove_duplicates, key]
  simp

theorem removeGroup_wet (keep : MPath) :
    ∀ (files : List MPath) (acc : List MPath × FS),
      files.Nodup →
      (∀ p ∈ files, p ≠ keep → acc.2.isFile p = true) →
      (removeGroup false keep acc files).1 =
          acc.1 ++ files.filter (fun f => decide (f ≠ keep)) ∧
      (∀ q, (removeGroup false keep acc files).2.isFile q =
          if q ∈ files ∧ q ≠ keep then false else acc.2.isFile q) := by
  intro files
  induction files with
  | nil =>
    intro acc _ _
    refine ⟨by simp [removeGroup], ?_⟩
    intro q
    simp [removeGroup]
  | cons f rest ih =>
    intro acc hnd hex
    obtain ⟨hf_not, hnd'⟩ := List.nodup_cons.mp hnd
    by_cases hf : f = keep
    · have hstep : removeGroup false keep acc (f :: rest) =
          removeGroup false keep acc rest := by
        simp [removeGroup, hf]
      obtain ⟨h1, h2⟩ := ih acc hnd' (fun p hp hpk => hex p (by simp [hp]) hpk)
      rw [hstep]
      refine ⟨by rw [h1, List.filter_cons]; simp [hf], ?_⟩
      intro q
      rw [h2 q]
      by_cases hq : q ∈ rest ∧ q ≠ keep
      · rw [if_pos hq, if_pos ⟨by simp [hq.1], hq.2⟩]
      · rw [if_neg hq, if_neg ?_]
        intro ⟨hq1, hq2⟩
        rcases List.mem_cons.mp hq1 with rfl | hq3
        · exact hq2 hf
        · exact hq ⟨hq3, hq2⟩
    · have hfile : acc.2.isFile f = true := hex f (by simp) hf
      have hunlink : unlink acc.2 f = some { acc.2 with
          isFile := fun q => if q = f then false else acc.2.isFile q,
          content := fun q => if q = f then none else acc.2.content q } := by
        simp [unlink, hfile]
      have hstep : removeGroup false keep acc (f :: rest) =
          removeGroup false keep (acc.1 ++ [f], { acc.2 with
            isFile := fun q => if q = f then false else acc.2.isFile q,
            content := fun q => if q = f then none else acc.2.content q }) rest := by
        simp [removeGroup, hf, hunlink]
      set fs2 : FS := { acc.2 with
        isFile := fun q => if q = f then false else acc.2.isFile q,
        content := fun q => if q = f then none else acc.2.content q } with hfs2
      have hex2 : ∀ p ∈ rest, p ≠ keep → fs2.isFile p = true := by
        intro p hp hpk
        have hpf : p ≠ f := fun hpf => hf_not (hpf ▸ hp)
        simp only [hfs2]
        simp [hpf]
        exact hex p (by simp [hp]) hpk
      obtain ⟨h1, h2⟩ := ih (acc.1 ++ [f], fs2) hnd' hex2
      rw [hstep]
      constructor
      · rw [h1, List.filter_cons]
        simp [hf]
      · intro q
        rw [h2 q]
        by_cases hq : q ∈ rest ∧ q ≠ keep
        · rw [if_pos hq, if_pos ⟨by simp [hq.1], hq.2⟩]
        · rw [if_neg hq]
          by_cases hqf : q = f
          · subst hqf
            rw [if_pos ⟨by simp, hf⟩]
            simp [hfs2]
          · rw [if_neg ?_]
            · simp [hfs2, hqf]
            · intro ⟨hq1, hq2⟩
              rcases List.mem_cons.mp hq1 with rfl | hq3
              · exact hqf rfl
              · exact hq ⟨hq3, hq2⟩

/-- Removal targets of any group list all come from the groups' files. -/
theorem nonKeptFiles_subset (strategy : KeepStrategy) :
    ∀ (gs : List (String × List MPath)) (p : MPath),
      p ∈ nonKeptFiles gs strategy → p ∈ (gs.map (fun g => g.2)).flatten := by
  intro gs
  induction gs with
  | nil => intro p hp; simp [nonKeptFiles] at hp
  | cons g rest ih =>
    intro p hp
    simp only [nonKeptFiles, List.map_cons, List.flatten_cons,
      List.mem_append] at hp ⊢
    rcases hp with hp1 | hp2
    · left
      unfold nonKeptGroup at hp1
      by_cases hlen : g.2.length ≤ 1
      · rw [if_pos hlen] at hp1; simp at hp1
      · rw [if_neg hlen] at hp1
        rcases hk : keepOf strategy g.2 with _ | keep
        · rw [hk] at hp1; simp at hp1
        · rw [hk] at hp1
          exact (List.mem_filter.mp hp1).1
    · exact Or.inr (ih p hp2)

/-- In wet mode, under pairwise-distinct paths that all exist, the run removes
exactly the non-kept files. -/
theorem remove_duplicates_wet (duplicate_groups : List (String × List MPath))
    (strategy : KeepStrategy) (fs : FS)
    (hnd : ((duplicate_groups.map (fun g => g.2)).flatten).Nodup)
    (hex : ∀ p ∈ (duplicate_groups.map (fun g => g.2)).flatten,
      fs.isFile p = true) :
    (remove_duplicates duplicate_groups strategy false fs).1 =
      nonKeptFiles duplicate_groups strategy := by
  have key : ∀ (gs : List (String × List MPath)) (acc1 : List MPath) (f : FS),
      ((gs.map (fun g => g.2)).flatten).Nodup →
      (∀ p ∈ (gs.map (fun g => g.2)).flatten, f.isFile p = true) →
      (gs.foldl (fun acc g =>
        if g.2.length ≤ 1 then acc
        else
          match keepOf strategy g.2 with
          | none => acc
          | some keep => removeGroup false keep acc g.2) (acc1, f)).1 =
      acc1 ++ nonKeptFiles gs strategy := by
    intro gs
    induction gs with
    | nil => intro acc1 f _ _; simp [nonKeptFiles]
    | cons g rest ih =>
      intro acc1 f hnd2 hex2
      have hnd3 : (g.2 ++ (rest.map (fun g => g.2)).flatten).Nodup := by
        simpa using hnd2
      obtain ⟨hndg, hndrest, hdisj⟩ := List.nodup_append.mp hnd3
      simp only [List.foldl_cons]
      by_cases hlen : g.2.length ≤ 1
      · rw [if_pos hlen, ih acc1 f hndrest
          (fun p hp => hex2 p (by simp [hp]))]
        simp [nonKeptFiles, nonKeptGroup, hlen]
      · rw [if_neg hlen]
        rcases hk : keepOf strategy g.2 with _ | keep
        · simp only [hk]
          rw [ih acc1 f hndrest (fun p hp => hex2 p (by simp [hp]))]
          simp [nonKeptFiles, nonKeptGroup, hlen, hk]
        · simp only [hk]
          obtain ⟨h1, h2⟩ := removeGroup_wet keep g.2 (acc1, f) hndg
            (fun p hp _ => hex2 p (by simp [hp]))
          have hafter : ∀ p ∈ (rest.map (fun g => g.2)).flatten,
              (removeGroup false keep (acc1, f) g.2).2.isFile p = true := by
            intro p hp
            rw [h2 p, if_neg ?_]
            · exact hex2 p (by simp [hp])
            · intro ⟨hp1, _⟩
              exact hdisj hp1 hp
          have heta : removeGroup false keep (acc1, f) g.2 =
              ((removeGroup false keep (acc1, f) g.2).1,
               (removeGroup false keep (acc1, f) g.2).2) := rfl
          rw [heta, ih _ _ hndrest hafter, h1]
          simp [nonKeptFiles, nonKeptGroup, hlen, hk]
  simp only [remove_duplicates]
  rw [key duplicate_groups [] fs hnd hex]
  simp

/-- The kept file of a group is never a removal target anywhere in the run,
when no path occurs twice across the groups. -/
theorem keep_not_mem_nonKeptFiles (strategy : KeepStrategy) :
    ∀ (gs : List (String × List MPath)) (g : String × List MPath)
      (keep : MPath),
      ((gs.map (fun g => g.2)).flatten).Nodup →
      g ∈ gs → keepOf strategy g.2 = some keep →
      keep ∉ nonKeptFiles gs strategy := by
  intro gs
  induction gs with
  | nil => intro g keep _ hg; simp at hg
  | cons g0 rest ih =>
    intro g keep hnd hg hk
    have hnd3 : (g0.2 ++ (rest.map (fun g => g.2)).flatten).Nodup := by
      simpa using hnd
    obtain ⟨hndg, hndrest, hdisj⟩ := List.nodup_append.mp hnd3
    have hkeep_mem : keep ∈ g.2 := by
      have hne : g.2 ≠ [] := by
        intro hnil
        rw [hnil] at hk
        cases strategy <;> simp [keepOf, pyMaxBy, pyMinBy] at hk
      obtain ⟨k, pre, post, hk2, hsplit⟩ := keepOf_split strategy g.2 hne
      rw [hk] at hk2
      injection hk2 with hk3
      rw [hsplit, ← hk3]
      simp
    simp only [nonKeptFiles, List.map_cons, List.flatten_cons,
      List.mem_append]
    intro hmem
    rcases List.mem_cons.mp hg with rfl | hgrest
    · rcases hmem with hm1 | hm2
      · unfold nonKeptGroup at hm1
        by_cases hlen : g.2.length ≤ 1
        · rw [if_pos hlen] at hm1; simp at hm1
        · rw [if_neg hlen, hk] at hm1
          have := (List.mem_filter.mp hm1).2
          simp at this
      · exact hdisj hkeep_mem (nonKeptFiles_subset strategy rest keep hm2)
    · rcases hmem with hm1 | hm2
      · have hkeep_rest : keep ∈ (rest.map (fun g => g.2)).flatten := by
          simp only [List.mem_flatten]
          exact ⟨g.2, by simp; exact ⟨g.1, by simpa using hgrest⟩, hkeep_mem⟩
        have hm1' : keep ∈ g0.2 := by
          unfold nonKeptGroup at hm1
          by_cases hlen : g0.2.length ≤ 1
          · rw [if_pos hlen] at hm1; simp at hm1
          · rw [if_neg hlen] at hm1
            rcases hk0 : keepOf strategy g0.2 with _ | keep0
            · rw [hk0] at hm1; simp at hm1
            · rw [hk0] at hm1
              exact (List.mem_filter.mp hm1).1
        exact hdisj hm1' hkeep_rest
      · exact ih g keep hndrest hgrest hk hm2

/-- With distinct paths, a group of more than one member contributes exactly
`length - 1` removal targets, and every group list's targets count to
`sum (length - 1)`. -/
theorem nonKeptGroup_length (strategy : KeepStrategy) (files : List MPath)
    (hnd : files.Nodup) :
    (nonKeptGroup strategy files).length = files.length - 1 := by
  unfold nonKeptGroup
  by_cases hlen : files.length ≤ 1
  · rw [if_pos hlen]
    simp
    omega
  · rw [if_neg hlen]
    have hne : files ≠ [] := by
      intro hnil
      rw [hnil] at hlen
      simp at hlen
    obtain ⟨k, pre, post, hk, hsplit⟩ := keepOf_split strategy files hne
    simp only [hk]
    subst hsplit
    obtain ⟨hpre_nd, hrest_nd, hdisj⟩ := List.nodup_append.mp hnd
    obtain ⟨hk_not_post, _⟩ := List.nodup_cons.mp hrest_nd
    have hk_not_pre : k ∉ pre := fun hkp => hdisj hkp (by simp)
    have hfk : (decide (k ≠ k)) = false := by simp
    rw [List.filter_append, List.filter_cons, hfk, if_neg Bool.false_ne_true]
    have hpre_all : pre.filter (fun f => decide (f ≠ k)) = pre :=
      List.filter_eq_self.mpr (fun f hf => by
        simp
        intro hfk
        exact hk_not_pre (hfk ▸ hf))
    have hpost_all : post.filter (fun f => decide (f ≠ k)) = post :=
      List.filter_eq_self.mpr (fun f hf => by
        simp
        intro hfk
        exact hk_not_post (hfk ▸ hf))
    rw [hpre_all, hpost_all]
    simp

theorem nonKeptFiles_length (strategy : KeepStrategy) :
    ∀ (gs : List (String × List MPath)),
      ((gs.map (fun g => g.2)).flatten).Nodup →
      (nonKeptFiles gs strategy).length =
        ((gs.map (fun g => g.2.length - 1)).sum) := by
  intro gs
  induction gs with
  | nil => intro _; simp [nonKeptFiles]
  | cons g rest ih =>
    intro hnd
    have hnd3 : (g.2 ++ (rest.map (fun g => g.2)).flatten).Nodup := by
      simpa using hnd
    obtain ⟨hndg, hndrest, _⟩ := List.nodup_append.mp hnd3
    simp only [nonKeptFiles, List.map_cons, List.flatten_cons,
      List.length_append, List.sum_cons]
    rw [nonKeptGroup_length strategy g.2 hndg]
    have := ih hndrest
    simp only [nonKeptFiles] at this
    rw [this]

/-- Groups returned by `find_duplicates` always have more than one member. -/
theorem mem_find_duplicates_length (fs : FS) (paths : List MPath)
    (alg : String) : ∀ g ∈ find_duplicates fs paths alg, 1 < g.2.length := by
  intro g hg
  simp only [find_duplicates] at hg
  have := (List.mem_filter.mp hg).2
  simpa using this

/-! ### Example filesystem used by the witnesses -/

def rootP : MPath := ⟨[], "root"⟩

def pA : MPath := ⟨["root"], "a.txt"⟩

def pB : MPath := ⟨["root"], "b.txt"⟩

def pC : MPath := ⟨["root"], "c.txt"⟩

def pU : MPath := ⟨["root"], "u.txt"⟩

def exFS : FS where
  isFile := fun p => decide (p = pA ∨ p = pB ∨ p = pC ∨ p = pU)
  isDir := fun p => decide (p = rootP)
  rglob := fun p => if p = rootP then [pA, pB, pC, pU] else []
  content := fun p =>
    if p = pA then some [88]
    else if p = pB then some [88]
    else if p = pC then some [89]
    else none

/-! ### Claims -/

/-- C2: byte-identical content yields the same fingerprint under raw-mode
hashing — `calculate_file_hash` depends only on the file's byte content, not
its name, path, or the chunk size used to read it — and files differing only
in whitespace/comments (line by line, the comment-stripped
whitespace-stripped text is equal) yield the same fingerprint under
normalized-source-mode hashing. -/
theorem c2_fingerprint_content (fs : FS) (alg : String) (p q : MPath)
    (hpq : fs.content p = fs.content q) (n : Nat) (hn : 0 < n)
    (data : List Nat) (lines1 lines2 : List (List Char))
    (hlines : List.Forall₂ (fun a b => normLineChars a = normLineChars b)
      lines1 lines2) :
    calculate_file_hash fs p alg = calculate_file_hash fs q alg ∧
    hexdigest ((readChunks n data).foldl hashUpdate (hashNew alg)) =
      hexdigest (hashUpdate (hashNew alg) data) ∧
    normalize_hash alg lines1 = normalize_hash alg lines2 := by
  refine ⟨?_, ?_, ?_⟩
  · simp only [calculate_file_hash, hpq]
  · rw [foldl_hashUpdate, readChunks_flatten n hn]
    rfl
  · have hmap : lines1.map normLineChars = lines2.map normLineChars := by
      induction hlines with
      | nil => rfl
      | cons hab _ ih => simp [hab, ih]
    simp [normalize_hash, normalizeSource, hmap]

/-- C2 witness: two files with equal content, chunk size 1, and two source
lines that differ only in whitespace and a trailing comment. -/
theorem c2_fingerprint_content_witness :
    (exFS.content pA = exFS.content pB ∧ (0 : Nat) < 1 ∧
      List.Forall₂ (fun a b => normLineChars a = normLineChars b)
        ["x=1 #c".data] ["x = 1".data]) ∧
    (calculate_file_hash exFS pA "md5" = calculate_file_hash exFS pB "md5" ∧
      hexdigest ((readChunks 1 [7, 8]).foldl hashUpdate (hashNew "md5")) =
        hexdigest (hashUpdate (hashNew "md5") [7, 8]) ∧
      normalize_hash "md5" ["x=1 #c".data] = normalize_hash "md5" ["x = 1".data]) :=
  ⟨⟨by decide, by decide, List.Forall₂.cons (by decide) List.Forall₂.nil⟩,
    c2_fingerprint_content exFS "md5" pA pB (by decide) 1 (by decide) [7, 8]
      ["x=1 #c".data] ["x = 1".data]
      (List.Forall₂.cons (by decide) List.Forall₂.nil)⟩

/-- C3: on a nonempty group the resolver keeps exactly one file per keep
strategy — under `first` the first-discovered file; under `longer` a file of
maximal name length; under `shorter` a file of minimal name length — and
under `longer`/`shorter` every file discovered before the kept one has a
strictly shorter/longer name, so ties on name length are won by the
earlier-discovered file. -/
theorem c3_keep_policy (files : List MPath) (hne : files ≠ []) :
    (keepOf .first files = files.head?) ∧
    (∃ k pre post, keepOf .longer files = some k ∧ files = pre ++ k :: post ∧
      (∀ f ∈ files, f.name.length ≤ k.name.length) ∧
      (∀ f ∈ pre, f.name.length < k.name.length)) ∧
    (∃ k pre post, keepOf .shorter files = some k ∧ files = pre ++ k :: post ∧
      (∀ f ∈ files, k.name.length ≤ f.name.length) ∧
      (∀ f ∈ pre, k.name.length < f.name.length)) := by
  obtain ⟨x, xs, rfl⟩ := List.exists_cons_of_ne_nil hne
  refine ⟨rfl, ?_, ?_⟩
  · obtain ⟨k, pre, post, hk, hsplit, hpre, hpost⟩ :=
      pyMaxBy_split (fun f => f.name.length) xs x
    refine ⟨k, pre, post, hk, hsplit, ?_, hpre⟩
    intro f hf
    rw [hsplit] at hf
    rcases List.mem_append.mp hf with hf1 | hf2
    · exact Nat.le_of_lt (hpre f hf1)
    · rcases List.mem_cons.mp hf2 with rfl | hf3
      · exact Nat.le_refl _
      · exact hpost f hf3
  · obtain ⟨k, pre, post, hk, hsplit, hpre, hpost⟩ :=
      pyMinBy_split (fun f => f.name.length) xs x
    refine ⟨k, pre, post, hk, hsplit, ?_, hpre⟩
    intro f hf
    rw [hsplit] at hf
    rcases List.mem_append.mp hf with hf1 | hf2
    · exact Nat.le_of_lt (hpre f hf1)
    · rcases List.mem_cons.mp hf2 with rfl | hf3
      · exact Nat.le_refl _
      · exact hpost f hf3

/-- C3 witness: a concrete group with a name-length tie. -/
theorem c3_keep_policy_witness :
    ([pA, pB, pC] : List MPath) ≠ [] ∧
    ((keepOf .first [pA, pB, pC] = ([pA, pB, pC] : List MPath).head?) ∧
    (∃ k pre post, keepOf .longer [pA, pB, pC] = some k ∧
      ([pA, pB, pC] : List MPath) = pre ++ k :: post ∧
      (∀ f ∈ ([pA, pB, pC] : List MPath), f.name.length ≤ k.name.length) ∧
      (∀ f ∈ pre, f.name.length < k.name.length)) ∧
    (∃ k pre post, keepOf .shorter [pA, pB, pC] = some k ∧
      ([pA, pB, pC] : List MPath) = pre ++ k :: post ∧
      (∀ f ∈ ([pA, pB, pC] : List MPath), k.name.length ≤ f.name.length) ∧
      (∀ f ∈ pre, k.name.length < f.name.length))) :=
  ⟨by decide, c3_keep_policy [pA, pB, pC] (by decide)⟩

/-- C7: a dry run touches no file — the filesystem state is returned
unchanged — and reports exactly the removal targets (every non-kept file of
every group of more than one member), the files a successful wet run would
remove. -/
theorem c7_dry_run_frame (duplicate_groups : List (String × List MPath))
    (strategy : KeepStrategy) (fs : FS) :
    remove_duplicates duplicate_groups strategy true fs =
      (nonKeptFiles duplicate_groups strategy, fs) :=
  remove_duplicates_dry duplicate_groups strategy fs

/-- C8: requesting the move action without a target directory fails with the
invalid-configuration error for every group mapping and filesystem state, so
no file is ever touched. -/
theorem c8_move_requires_target (duplicates : List (String × List MPath))
    (fs : FS) :
    act_on_duplicates duplicates .move none fs = .error "invalid configuration" :=
  rfl

/-- C9: `find_duplicates` is a function of the observed filesystem state
alone — two runs over filesystems observing identical files, directories,
traversal and contents return identical group mappings. -/
theorem c9_scan_deterministic (fs1 fs2 : FS) (paths : List MPath)
    (alg : String)
    (h1 : ∀ p, fs1.isFile p = fs2.isFile p)
    (h2 : ∀ p, fs1.isDir p = fs2.isDir p)
    (h3 : ∀ p, fs1.rglob p = fs2.rglob p)
    (h4 : ∀ p, fs1.content p = fs2.content p) :
    find_duplicates fs1 paths alg = find_duplicates fs2 paths alg := by
  have heq : fs1 = fs2 := by
    obtain ⟨f1, d1, r1, c1⟩ := fs1
    obtain ⟨f2, d2, r2, c2⟩ := fs2
    simp only [FS.mk.injEq]
    exact ⟨funext h1, funext h2, funext h3, funext h4⟩
  rw [heq]

/-- C9 witness: the same filesystem observed twice. -/
theorem c9_scan_deterministic_witness :
    ((∀ p, exFS.isFile p = exFS.isFile p) ∧ (∀ p, exFS.isDir p = exFS.isDir p) ∧
      (∀ p, exFS.rglob p = exFS.rglob p) ∧
      (∀ p, exFS.content p = exFS.content p)) ∧
    find_duplicates exFS [rootP] "md5" = find_duplicates exFS [rootP] "md5" :=
  ⟨⟨fun _ => rfl, fun _ => rfl, fun _ => rfl, fun _ => rfl⟩,
    c9_scan_deterministic exFS exFS [rootP] "md5"
      (fun _ => rfl) (fun _ => rfl) (fun _ => rfl) (fun _ => rfl)⟩

/-- C10: `find_and_remove_duplicates` returns exactly what the composition
`remove_duplicates (find_duplicates paths) strategy dry_run` returns, for
every input — including the early return of the empty list when no
duplicates are found, since then the scan's group mapping is itself empty. -/
theorem c10_pipeline_composition (fs : FS) (paths : List MPath)
    (strategy : KeepStrategy) (dry_run : Bool) :
    find_and_remove_duplicates fs paths strategy dry_run =
      remove_duplicates (find_duplicates fs paths "md5") strategy dry_run fs := by
  simp only [find_and_remove_duplicates]
  by_cases htot :
      ((find_duplicates fs paths "md5").map (fun g => g.2.length - 1)).sum = 0
  · rw [if_pos htot]
    have hnil : find_duplicates fs paths "md5" = [] := by
      rcases h : find_duplicates fs paths "md5" with _ | ⟨g, rest⟩
      · rfl
      · exfalso
        have hg : g ∈ find_duplicates fs paths "md5" := by rw [h]; simp
        have hlen := mem_find_duplicates_length fs paths "md5" g hg
        rw [h] at htot
        simp [List.sum_cons] at htot
        omega
    rw [hnil]
    rfl
  · rw [if_neg htot]

/-- C1: every group that `find_duplicates` returns has at least two members,
its key is the common fingerprint of all of its members, and its members are
exactly the discovered files bearing that fingerprint, in discovery order of
the traversal. -/
theorem c1_duplicate_groups (fs : FS) (paths : List MPath) (alg h : String)
    (g : List MPath) (hm : (h, g) ∈ find_duplicates fs paths alg) :
    2 ≤ g.length ∧ (∀ p ∈ g, hashOf fs p alg = some h) ∧
    g = (discoveredFiles fs paths).filter
      (fun p => decide (hashOf fs p alg = some h)) := by
  rw [find_duplicates_eq_discovered] at hm
  obtain ⟨hm2, hlen⟩ := List.mem_filter.mp hm
  have hlen2 : 1 < g.length := by simpa using hlen
  have hndk := nodup_keysOf_foldl_scanFile fs alg (discoveredFiles fs paths) []
    (by simp [keysOf])
  have hlook := lookupGroup_eq_of_mem _ h g hm2 hndk
  have hchar := foldl_scanFile_lookup fs alg (discoveredFiles fs paths) [] h
  rw [hlook] at hchar
  simp only [lookupGroup, List.nil_append] at hchar
  refine ⟨by omega, ?_, hchar⟩
  intro p hp
  rw [hchar] at hp
  exact of_decide_eq_true (List.mem_filter.mp hp).2

/-- C1 witness: the example tree's two identical files form the single
returned group. -/
theorem c1_duplicate_groups_witness :
    (("md5|[88]", [pA, pB]) ∈ find_duplicates exFS [rootP] "md5") ∧
    (2 ≤ ([pA, pB] : List MPath).length ∧
      (∀ p ∈ ([pA, pB] : List MPath), hashOf exFS p "md5" = some "md5|[88]") ∧
      [pA, pB] = (discoveredFiles exFS [rootP]).filter
        (fun p => decide (hashOf exFS p "md5" = some "md5|[88]"))) :=
  ⟨by decide, c1_duplicate_groups exFS [rootP] "md5" "md5|[88]" [pA, pB] (by decide)⟩

/-- C4 counterexample: a group listing the same path twice (which
`find_duplicates` produces when the input paths overlap) has no non-kept
file at all — the success hypothesis holds vacuously — yet the resolver
removes 0 files while `sum (len(group) - 1)` is 1, so the unamended count
equation fails. -/
theorem c4_counterexample :
    nonKeptFiles [("h", [pA, pA])] KeepStrategy.first = [] ∧
    (remove_duplicates [("h", [pA, pA])] KeepStrategy.first false exFS).1 = [] ∧
    (([("h", [pA, pA])].map (fun g => g.2.length - 1)).sum = 1) :=
  ⟨by decide, by decide, by decide⟩

/-- C4 (amended): when no path occurs twice across the duplicate groups and
every listed file exists (so the delete action succeeds on every non-kept
file), the resolver removes exactly the non-kept files — counting
`sum (len(group) - 1)` in total — and the kept file of each group is never
acted upon and never counted in the result. -/
theorem c4_removal_count (duplicate_groups : List (String × List MPath))
    (strategy : KeepStrategy) (fs : FS)
    (hnd : ((duplicate_groups.map (fun g => g.2)).flatten).Nodup)
    (hex : ∀ p ∈ (duplicate_groups.map (fun g => g.2)).flatten,
      fs.isFile p = true) :
    (remove_duplicates duplicate_groups strategy false fs).1 =
      nonKeptFiles duplicate_groups strategy ∧
    (remove_duplicates duplicate_groups strategy false fs).1.length =
      ((duplicate_groups.map (fun g => g.2.length - 1)).sum) ∧
    ∀ g ∈ duplicate_groups, ∀ keep, keepOf strategy g.2 = some keep →
      keep ∉ (remove_duplicates duplicate_groups strategy false fs).1 := by
  have h1 := remove_duplicates_wet duplicate_groups strategy fs hnd hex
  refine ⟨h1, ?_, ?_⟩
  · rw [h1]
    exact nonKeptFiles_length strategy duplicate_groups hnd
  · intro g hg keep hk
    rw [h1]
    exact keep_not_mem_nonKeptFiles strategy duplicate_groups g keep hnd hg hk

/-- C4 witness: two disjoint groups of sizes 2 and 2 over existing files;
3 − 1 = 2 files are removed in total. -/
theorem c4_removal_count_witness :
    ((([("h1", [pA, pB]), ("h2", [pC, pU])].map (fun g => g.2)).flatten).Nodup ∧
      (∀ p ∈ (([("h1", [pA, pB]), ("h2", [pC, pU])].map (fun g => g.2)).flatten),
        exFS.isFile p = true)) ∧
    ((remove_duplicates [("h1", [pA, pB]), ("h2", [pC, pU])]
        KeepStrategy.first false exFS).1 =
      nonKeptFiles [("h1", [pA, pB]), ("h2", [pC, pU])] KeepStrategy.first ∧
    (remove_duplicates [("h1", [pA, pB]), ("h2", [pC, pU])]
        KeepStrategy.first false exFS).1.length =
      (([("h1", [pA, pB]), ("h2", [pC, pU])].map (fun g => g.2.length - 1)).sum) ∧
    ∀ g ∈ ([("h1", [pA, pB]), ("h2", [pC, pU])] : List (String × List MPath)),
      ∀ keep, keepOf KeepStrategy.first g.2 = some keep →
      keep ∉ (remove_duplicates [("h1", [pA, pB]), ("h2", [pC, pU])]
        KeepStrategy.first false exFS).1) :=
  ⟨⟨by decide, by decide⟩,
    c4_removal_count [("h1", [pA, pB]), ("h2", [pC, pU])] KeepStrategy.first exFS
      (by decide) (by decide)⟩

/-- C5: a scan whose root does not exist or is not a directory fails with the
fatal "root not found" condition, producing no partial result. -/
theorem c5_root_not_found (fs : FS) (root : MPath)
    (extensions : Option (List String)) (ignore_dirs : List String)
    (alg : String) (hroot : fs.isDir root = false) :
    core_find_duplicates fs root extensions ignore_dirs alg =
      .error "root not found" := by
  simp [core_find_duplicates, hroot]

/-- C5 witness: scanning with a non-directory root fails. -/
theorem c5_root_not_found_witness :
    exFS.isDir pA = false ∧
    core_find_duplicates exFS pA none [] "md5" = .error "root not found" :=
  ⟨by decide, c5_root_not_found exFS pA none [] "md5" (by decide)⟩

/-- C6: hashing an unopenable file surfaces the error to the caller rather
than swallowing it, and the scanner skips such files and continues — the
returned groups are exactly those computed from the discovered files whose
hashing succeeds. -/
theorem c6_unreadable_file_skipped (fs : FS) (paths : List MPath)
    (alg : String) (u : MPath) (hu : fs.content u = none) :
    calculate_file_hash fs u alg = .error "cannot open file" ∧
    find_duplicates fs paths alg =
      (((discoveredFiles fs paths).filter
          (fun p => (hashOf fs p alg).isSome)).foldl (scanFile fs alg) []).filter
        (fun g => decide (1 < g.2.length)) := by
  refine ⟨by simp [calculate_file_hash, hu], ?_⟩
  rw [find_duplicates_eq_discovered, ← foldl_scanFile_filter_readable]

/-- C6 witness: the example tree contains an unreadable file and the scan
still returns the duplicate group of the readable files. -/
theorem c6_unreadable_file_skipped_witness :
    exFS.content pU = none ∧
    (calculate_file_hash exFS pU "md5" = .error "cannot open file" ∧
      find_duplicates exFS [rootP] "md5" =
        (((discoveredFiles exFS [rootP]).filter
            (fun p => (hashOf exFS p "md5").isSome)).foldl
          (scanFile exFS "md5") []).filter (fun g => decide (1 < g.2.length))) :=
  ⟨by decide, c6_unreadable_file_skipped exFS [rootP] "md5" pU (by decide)⟩

end Morchaos
